import Mathlib

/-!
# Verification of the CoNLL-U train/dev/test splitting utility

A shallow embedding of `split_diachron_data.py` and proofs of the
specified properties of its reader (`read_conllu_sentences`), writer
(`write_conllu_sentences`) and partitioner (shuffle + 80/10/10 slicing).

Modelling conventions:
* a file is its decoded text content, a `String` (a list of `Char`s);
* Python's text-mode `open` with default `newline=None` performs
  universal-newline translation, modelled by `univNewlines`;
* iterating over an open file yields the maximal chunks ending in
  `'\n'` (plus a final unterminated chunk), modelled by `splitChunksGo`;
* `int`/`float` arithmetic on split sizes is modelled exactly, with
  IEEE-754 double rounding expressed over natural numbers (`roundMant`);
* `random.shuffle` is CPython's Fisher-Yates loop over an arbitrary
  generator `rand`, where `rand i % (i + 1)` stands for `_randbelow(i+1)`.
-/

set_option maxHeartbeats 1000000
set_option maxRecDepth 200000

/-! ## Text decoding: universal newlines and line iteration -/

/-- Universal-newline translation performed by Python's text-mode `open`
(default `newline=None`): every `"\r\n"` pair and every lone `'\r'` in
the decoded character stream becomes a single `'\n'`. -/
def univNewlines : List Char → List Char
  | [] => []
  | [c] => if c = '\x0d' then ['\x0a'] else [c]
  | c1 :: c2 :: rest =>
    if c1 = '\x0d' then
      if c2 = '\x0a' then '\x0a' :: univNewlines rest
      else '\x0a' :: univNewlines (c2 :: rest)
    else c1 :: univNewlines (c2 :: rest)

/-- Split a character stream into Python's file-iteration lines: maximal
chunks ending in `'\n'` (the terminator is kept, as in Python), plus a
final unterminated chunk if the stream does not end with `'\n'`.
`acc` holds the current chunk in reverse. -/
def splitChunksGo : List Char → List Char → List (List Char)
  | [], acc => if acc = [] then [] else [acc.reverse]
  | c :: cs, acc =>
    if c = '\x0a' then (acc.reverse ++ ['\x0a']) :: splitChunksGo cs []
    else splitChunksGo cs (c :: acc)

/-- The lines produced by `for line in f` on an open text file with the
given decoded content: universal-newline translation followed by
chunking at `'\n'`. -/
def pythonLines (content : String) : List String :=
  (splitChunksGo (univNewlines content.data) []).map String.mk

/-- `line.rstrip('\n')`: remove all trailing `'\n'` characters (and
nothing else) from a string. -/
def rstripN (s : String) : String :=
  String.mk ((s.data.reverse.dropWhile (fun c => c = '\x0a')).reverse)

/-! ## Corpus reader (`read_conllu_sentences`) -/

/-- The reader's line loop.  Each line is `rstrip('\n')`-ed; an empty
result closes the currently accumulating sentence `cur` (appending it to
the output if non-empty) and resets the accumulator; a non-empty result
is appended to `cur`.  At end of input a non-empty accumulator is
flushed as a final sentence. -/
def readGo : List String → List String → List (List String)
  | [], cur => if cur = [] then [] else [cur]
  | l :: rest, cur =>
    if rstripN l = "" then
      (if cur = [] then readGo rest [] else cur :: readGo rest [])
    else readGo rest (cur ++ [rstripN l])

/-- `read_conllu_sentences` restricted to an already-split line list. -/
def readLines (lines : List String) : List (List String) :=
  readGo lines []

/-- `read_conllu_sentences(file_path)`, as a function of the file's
decoded text content. -/
def read_conllu_sentences (content : String) : List (List String) :=
  readGo (pythonLines content) []

/-! ## Corpus writer (`write_conllu_sentences`) -/

/-- The writer's inner loop: `for line in sentence: f.write(line + '\n')`,
accumulating the written file content. -/
def sentLinesLoop : List String → String → String
  | [], acc => acc
  | l :: t, acc => sentLinesLoop t (acc ++ l ++ "\x0a")

/-- The writer's outer loop over `enumerate(sentences)`: write each
sentence's lines, then a single separating `'\n'` whenever the index
satisfies `i < len(sentences) - 1`. -/
def writeLoop (total : ℕ) : ℕ → List (List String) → String → String
  | _, [], acc => acc
  | i, s :: rest, acc =>
    writeLoop total (i + 1) rest
      (if i < total - 1 then sentLinesLoop s acc ++ "\x0a" else sentLinesLoop s acc)

/-- `write_conllu_sentences(sentences, output_path)`, as the text content
written to the output file. -/
def write_conllu_sentences (sentences : List (List String)) : String :=
  writeLoop sentences.length 0 sentences ""

/-- The characters of one serialized sentence: its lines in order, each
followed by one `'\n'`. -/
def sentenceChars : List String → List Char
  | [] => []
  | l :: t => l.data ++ '\x0a' :: sentenceChars t

/-- The spec's description of the writer's output: each sentence's lines
verbatim in order, each followed by a single line terminator, with
exactly one extra blank line between consecutive sentences and none
after the final sentence. -/
def writeSpecChars : List (List String) → List Char
  | [] => []
  | [s] => sentenceChars s
  | s :: s2 :: rest => sentenceChars s ++ '\x0a' :: writeSpecChars (s2 :: rest)

/-- `writeSpecChars`, packaged as a `String`. -/
def writeSpecString (p : List (List String)) : String :=
  String.mk (writeSpecChars p)

/-! ## Split sizes: exact model of `int(0.8 * total)` and `int(0.1 * total)`

The nearest IEEE-754 double to `0.8` is `3602879701896397 / 2^52` and the
nearest double to `0.1` is `3602879701896397 / 2^55`.  Multiplying an
integer `n` by one of these doubles converts `n` to a double (rounding
its significand to 53 bits, round-to-nearest ties-to-even) and then
rounds the product's significand the same way.  `roundMant` performs
exactly that significand rounding on a natural number. -/

/-- `bitLenAux fuel n` computes the binary bit length of `n` whenever
`n ≤ fuel`; structural recursion on `fuel` keeps it kernel-computable. -/
def bitLenAux : ℕ → ℕ → ℕ
  | 0, _ => 0
  | f + 1, n => if n = 0 then 0 else bitLenAux f (n / 2) + 1

/-- Bit length of a natural number (`0` has bit length `0`). -/
def bitLen (n : ℕ) : ℕ :=
  bitLenAux n n

/-- Round a natural number to 53 significant bits, round-to-nearest
ties-to-even: the significand rounding step of IEEE-754 double-precision
arithmetic, applied to an integer value. -/
def roundMant (p : ℕ) : ℕ :=
  if bitLen p ≤ 53 then p
  else if 2 ^ (bitLen p - 53 - 1) < p % 2 ^ (bitLen p - 53) then
    (p / 2 ^ (bitLen p - 53) + 1) * 2 ^ (bitLen p - 53)
  else if p % 2 ^ (bitLen p - 53) < 2 ^ (bitLen p - 53 - 1) then
    p / 2 ^ (bitLen p - 53) * 2 ^ (bitLen p - 53)
  else if p / 2 ^ (bitLen p - 53) % 2 = 0 then
    p / 2 ^ (bitLen p - 53) * 2 ^ (bitLen p - 53)
  else
    (p / 2 ^ (bitLen p - 53) + 1) * 2 ^ (bitLen p - 53)

/-- Numerator of the double nearest `0.8` (denominator `2^52`), and also
of the double nearest `0.1` (denominator `2^55`). -/
def mant08 : ℕ := 3602879701896397

/-- `train_size = int(0.8 * total_sentences)` computed exactly as CPython
does: `total` is converted to a double, multiplied by the double nearest
`0.8` (value `mant08 / 2^52`), and the product is truncated to an
integer. -/
def pyTrainSize (total : ℕ) : ℕ :=
  roundMant (roundMant total * mant08) / 2 ^ 52

/-- `dev_size = int(0.1 * total_sentences)` computed exactly as CPython
does, with the double nearest `0.1` having value `mant08 / 2^55`. -/
def pyDevSize (total : ℕ) : ℕ :=
  roundMant (roundMant total * mant08) / 2 ^ 55

/-- `test_size = total_sentences - train_size - dev_size` (Python `int`
subtraction, so the result lives in `ℤ`). -/
def pyTestSize (total : ℕ) : ℤ :=
  (total : ℤ) - pyTrainSize total - pyDevSize total

/-! ## Partitioner: `random.shuffle` and the three slices -/

/-- The tuple swap `x[i], x[j] = x[j], x[i]` on a list (identity when an
index is out of range; the shuffle only uses in-range indices). -/
def listSwap {α : Type} (l : List α) (i j : ℕ) : List α :=
  match l[i]?, l[j]? with
  | some x, some y => (l.set i y).set j x
  | _, _ => l

/-- CPython's `random.shuffle` loop: `for i in reversed(range(1, len(x))):
j = _randbelow(i + 1); x[i], x[j] = x[j], x[i]`.  The generator is
modelled by `rand`, with `rand i % (i + 1)` standing for the value of
`_randbelow(i + 1)` (any value in `[0, i]` is realisable). -/
def shuffleGo {α : Type} (rand : ℕ → ℕ) : ℕ → List α → List α
  | 0, l => l
  | i + 1, l => shuffleGo rand i (listSwap l (i + 1) (rand (i + 1) % (i + 2)))

/-- `random.shuffle(x)`: run the swap loop from index `len(x) - 1` down
to `1`. -/
def fisherYates {α : Type} (rand : ℕ → ℕ) (l : List α) : List α :=
  shuffleGo rand (l.length - 1) l

/-- The partitioning step of `main`: shuffle the corpus, then slice it
as `all[:train_size]`, `all[train_size:train_size+dev_size]`,
`all[train_size+dev_size:]`. -/
def splitCorpus (rand : ℕ → ℕ) (corpus : List (List String)) :
    List (List String) × List (List String) × List (List String) :=
  let shuffled := fisherYates rand corpus
  let trainSize := pyTrainSize shuffled.length
  let devSize := pyDevSize shuffled.length
  (shuffled.take trainSize, (shuffled.drop trainSize).take devSize,
    shuffled.drop (trainSize + devSize))

/-! ## The full run -/

/-- Concatenation of a list of lists (used for `all_sentences.extend`
and for flattening sentences into lines). -/
def flattenL {α : Type} : List (List α) → List α
  | [] => []
  | s :: t => s ++ flattenL t

/-- Outcome of one run of `main`: no matching input files (reported,
nothing written, normal return), an unhandled fault, or the three
output file contents. -/
inductive RunOutcome : Type
  | noInput : RunOutcome
  | fault : RunOutcome
  | outputs (train dev test : String) : RunOutcome

/-- One run of `main`, as a function of the discovered `.conllu` files'
decoded contents (in discovery order) and of the seeded generator.
With no input files the run reports and returns normally; with input
files but zero sentences the percentage report divides by zero
(unhandled `ZeroDivisionError`); otherwise the corpus is aggregated in
file order, shuffled once, sliced, and the three files are written. -/
def runMain (rand : ℕ → ℕ) (conlluFiles : List String) : RunOutcome :=
  if conlluFiles.isEmpty then .noInput
  else
    let corpus := flattenL (conlluFiles.map read_conllu_sentences)
    if corpus.length = 0 then .fault
    else
      let parts := splitCorpus rand corpus
      .outputs (write_conllu_sentences parts.1) (write_conllu_sentences parts.2.1)
        (write_conllu_sentences parts.2.2)

/-- Keep the lines that are non-empty (a reference function for stating
which reader input lines become sentence content). -/
def nonBlank : List String → List String
  | [] => []
  | l :: t => if l = "" then nonBlank t else l :: nonBlank t

/-! ## First lemmas: strings and the writer -/

theorem strMk_data (s : String) : String.mk s.data = s := by
  cases s
  rfl

theorem sentLinesLoop_eq (s : List String) :
    ∀ acc : String, sentLinesLoop s acc = acc ++ String.mk (sentenceChars s) := by
  induction s with
  | nil =>
    intro acc
    apply String.ext
    simp [sentLinesLoop, sentenceChars, String.data_append]
  | cons l t ih =>
    intro acc
    show sentLinesLoop t (acc ++ l ++ "\x0a") = _
    rw [ih]
    apply String.ext
    simp [sentenceChars, String.data_append]

theorem writeLoop_eq (total : ℕ) :
    ∀ (l : List (List String)) (i : ℕ) (acc : String), i + l.length = total →
      writeLoop total i l acc = acc ++ writeSpecString l := by
  intro l
  induction l with
  | nil =>
    intro i acc _
    apply String.ext
    simp [writeLoop, writeSpecString, writeSpecChars, String.data_append]
  | cons s rest ih =>
    intro i acc h
    cases rest with
    | nil =>
      show writeLoop total (i + 1) []
        (if i < total - 1 then sentLinesLoop s acc ++ "\x0a" else sentLinesLoop s acc) = _
      have hi : ¬ i < total - 1 := by
        simp [List.length] at h
        omega
      rw [if_neg hi]
      show sentLinesLoop s acc = _
      rw [sentLinesLoop_eq]
      apply String.ext
      simp [writeSpecString, writeSpecChars, String.data_append]
    | cons s2 t =>
      show writeLoop total (i + 1) (s2 :: t)
        (if i < total - 1 then sentLinesLoop s acc ++ "\x0a" else sentLinesLoop s acc) = _
      have hi : i < total - 1 := by
        simp [List.length] at h
        omega
      rw [if_pos hi, ih (i + 1) _ (by simp [List.length] at h ⊢; omega), sentLinesLoop_eq]
      apply String.ext
      simp [writeSpecString, writeSpecChars, String.data_append]

theorem write_eq_writeSpec (p : List (List String)) :
    write_conllu_sentences p = writeSpecString p := by
  have h := writeLoop_eq p.length p 0 "" (by simp)
  rw [write_conllu_sentences, h]
  apply String.ext
  simp [String.data_append]

/-! ## Lemmas about `rstripN`, chunking and newline translation -/

theorem dropWhile_no_nl {m : List Char} (h : '\x0a' ∉ m) :
    m.dropWhile (fun c => c = '\x0a') = m := by
  cases m with
  | nil => rfl
  | cons a t =>
    simp only [List.mem_cons, not_or] at h
    rw [List.dropWhile_cons, if_neg (by simp [Ne.symm h.1])]

theorem strMk_eq_empty_iff {m : List Char} : String.mk m = "" ↔ m = [] := by
  constructor
  · intro h
    have := congrArg String.data h
    simpa using this
  · intro h
    rw [h]

theorem rstripN_no_nl {s : String} (h : '\x0a' ∉ s.data) : rstripN s = s := by
  rw [rstripN, dropWhile_no_nl (by simpa using h), List.reverse_reverse, strMk_data]

theorem rstripN_append_nl {l : List Char} (h : '\x0a' ∉ l) :
    rstripN (String.mk (l ++ ['\x0a'])) = String.mk l := by
  rw [rstripN]
  show String.mk (((l ++ ['\x0a']).reverse.dropWhile (fun c => c = '\x0a')).reverse) = _
  rw [List.reverse_append]
  show String.mk ((('\x0a' :: l.reverse).dropWhile (fun c => c = '\x0a')).reverse) = _
  rw [List.dropWhile_cons, if_pos (by simp), dropWhile_no_nl (by simpa using h),
    List.reverse_reverse]

theorem rstripN_blank : rstripN (String.mk ['\x0a']) = "" := by
  have := rstripN_append_nl (l := []) (by simp)
  simpa using this

theorem univNewlines_no_cr : ∀ {cs : List Char}, '\x0d' ∉ cs → univNewlines cs = cs := by
  intro cs
  induction cs with
  | nil => intro _; rfl
  | cons c rest ih =>
    intro h
    simp only [List.mem_cons, not_or] at h
    cases rest with
    | nil =>
      show univNewlines [c] = [c]
      rw [univNewlines, if_neg (Ne.symm h.1)]
    | cons c2 r =>
      show univNewlines (c :: c2 :: r) = _
      rw [univNewlines, if_neg (Ne.symm h.1), ih h.2]

theorem splitChunksGo_line {xs : List Char} (h : '\x0a' ∉ xs) :
    ∀ (rest acc : List Char),
      splitChunksGo (xs ++ '\x0a' :: rest) acc
        = (acc.reverse ++ xs ++ ['\x0a']) :: splitChunksGo rest [] := by
  induction xs with
  | nil =>
    intro rest acc
    show splitChunksGo ('\x0a' :: rest) acc = _
    rw [splitChunksGo, if_pos rfl]
    simp
  | cons c t ih =>
    intro rest acc
    simp only [List.mem_cons, not_or] at h
    show splitChunksGo (c :: (t ++ '\x0a' :: rest)) acc = _
    rw [splitChunksGo, if_neg (Ne.symm h.1), ih h.2 rest (c :: acc)]
    simp

theorem splitChunksGo_last {xs : List Char} (h : '\x0a' ∉ xs) :
    ∀ acc : List Char,
      splitChunksGo xs acc
        = if acc.reverse ++ xs = [] then [] else [acc.reverse ++ xs] := by
  induction xs with
  | nil =>
    intro acc
    show (if acc = [] then [] else [acc.reverse]) = _
    by_cases ha : acc = []
    · simp [ha]
    · rw [if_neg ha, if_neg (by simp [ha])]
      simp
  | cons c t ih =>
    intro acc
    simp only [List.mem_cons, not_or] at h
    show splitChunksGo (c :: t) acc = _
    rw [splitChunksGo, if_neg (Ne.symm h.1), ih h.2 (c :: acc),
      if_neg (by simp), if_neg (by simp)]
    simp

/-! ## Lemmas about the reader loop -/

theorem readGo_nil (cur : List String) :
    readGo [] cur = if cur = [] then [] else [cur] := rfl

theorem readGo_cons_blank {l : String} (h : rstripN l = "") (rest cur : List String) :
    readGo (l :: rest) cur
      = if cur = [] then readGo rest [] else cur :: readGo rest [] := by
  rw [readGo, if_pos h]

theorem readGo_cons_content {l : String} (h : ¬ rstripN l = "") (rest cur : List String) :
    readGo (l :: rest) cur = readGo rest (cur ++ [rstripN l]) := by
  rw [readGo, if_neg h]

theorem readGo_append_blank {b : String} (hb : rstripN b = "") :
    ∀ (ls : List String) (cur : List String),
      readGo (ls ++ [b]) cur = readGo ls cur := by
  intro ls
  induction ls with
  | nil =>
    intro cur
    show readGo [b] cur = readGo [] cur
    rw [readGo_cons_blank hb]
    simp [readGo_nil]
  | cons l rest ih =>
    intro cur
    by_cases hl : rstripN l = ""
    · rw [List.cons_append, readGo_cons_blank hl, readGo_cons_blank hl, ih]
    · rw [List.cons_append, readGo_cons_content hl, readGo_cons_content hl, ih]

theorem readGo_content_lines {s : List String}
    (h : ∀ l ∈ s, l ≠ "" ∧ '\x0a' ∉ l.data) :
    ∀ (rest cur : List String),
      readGo ((s.map (fun l => String.mk (l.data ++ ['\x0a']))) ++ rest) cur
        = readGo rest (cur ++ s) := by
  induction s with
  | nil => intro rest cur; simp
  | cons l t ih =>
    intro rest cur
    obtain ⟨hl, hnl⟩ := h l (List.mem_cons_self l t)
    have hs : rstripN (String.mk (l.data ++ ['\x0a'])) = l := by
      rw [rstripN_append_nl hnl, strMk_data]
    rw [List.map_cons, List.cons_append,
      readGo_cons_content (by rw [hs]; exact hl), hs,
      ih (fun x hx => h x (List.mem_cons_of_mem l hx)) rest (cur ++ [l])]
    simp

theorem readGo_no_empty : ∀ (ls : List String) (cur : List String), [] ∉ readGo ls cur := by
  intro ls
  induction ls with
  | nil =>
    intro cur
    rw [readGo_nil]
    by_cases hc : cur = [] <;> simp [hc]
  | cons l rest ih =>
    intro cur
    by_cases hl : rstripN l = ""
    · rw [readGo_cons_blank hl]
      by_cases hc : cur = []
      · simpa [hc] using ih []
      · simp only [if_neg hc, List.mem_cons, not_or]
        exact ⟨fun hh => hc hh.symm, ih []⟩
    · rw [readGo_cons_content hl]
      exact ih _

theorem flattenL_readGo : ∀ (ls : List String) (cur : List String),
    flattenL (readGo ls cur) = cur ++ nonBlank (ls.map rstripN) := by
  intro ls
  induction ls with
  | nil =>
    intro cur
    rw [readGo_nil]
    by_cases hc : cur = [] <;> simp [hc, nonBlank, flattenL]
  | cons l rest ih =>
    intro cur
    by_cases hl : rstripN l = ""
    · rw [readGo_cons_blank hl, List.map_cons, nonBlank, if_pos hl]
      by_cases hc : cur = []
      · rw [if_pos hc, ih, hc]
      · rw [if_neg hc]
        show cur ++ flattenL (readGo rest []) = _
        rw [ih]
        simp
    · rw [readGo_cons_content hl, List.map_cons, nonBlank, if_neg hl, ih]
      simp

/-! ## Reading back a written partition -/

theorem chunks_sentence {s : List String} (h : ∀ l ∈ s, '\x0a' ∉ l.data) :
    ∀ tail : List Char,
      splitChunksGo (sentenceChars s ++ tail) []
        = (s.map (fun l => l.data ++ ['\x0a'])) ++ splitChunksGo tail [] := by
  induction s with
  | nil => intro tail; simp [sentenceChars]
  | cons l t ih =>
    intro tail
    have hshape : sentenceChars (l :: t) ++ tail
        = l.data ++ '\x0a' :: (sentenceChars t ++ tail) := by
      rw [sentenceChars]
      simp
    rw [hshape, splitChunksGo_line (h l (List.mem_cons_self l t)) (sentenceChars t ++ tail) [],
      ih (fun x hx => h x (List.mem_cons_of_mem l hx)) tail]
    simp

theorem read_write_chunks : ∀ {p : List (List String)},
    (∀ s ∈ p, s ≠ [] ∧ ∀ l ∈ s, l ≠ "" ∧ '\x0a' ∉ l.data) →
    readGo ((splitChunksGo (writeSpecChars p) []).map String.mk) [] = p := by
  intro p
  induction p with
  | nil => intro _; rfl
  | cons s rest ih =>
    intro h
    obtain ⟨hs, hlines⟩ := h s (List.mem_cons_self s rest)
    have hlnl : ∀ l ∈ s, '\x0a' ∉ l.data := fun l hl => (hlines l hl).2
    cases rest with
    | nil =>
      show readGo ((splitChunksGo (sentenceChars s) []).map String.mk) [] = [s]
      have hch := chunks_sentence hlnl []
      have hnil : splitChunksGo ([] : List Char) [] = [] := rfl
      rw [List.append_nil, hnil, List.append_nil] at hch
      rw [hch, List.map_map]
      have hmapped : (s.map (String.mk ∘ fun l => l.data ++ ['\x0a']))
          = s.map (fun l => String.mk (l.data ++ ['\x0a'])) := by
        simp [Function.comp]
      rw [hmapped]
      have hcl := readGo_content_lines hlines [] []
      simp only [List.append_nil, List.nil_append] at hcl
      rw [hcl, readGo_nil, if_neg hs]
    | cons s2 t =>
      show readGo ((splitChunksGo (sentenceChars s ++ '\x0a' :: writeSpecChars (s2 :: t))
        []).map String.mk) [] = s :: s2 :: t
      rw [chunks_sentence hlnl ('\x0a' :: writeSpecChars (s2 :: t))]
      have hsep : splitChunksGo ('\x0a' :: writeSpecChars (s2 :: t)) []
          = ['\x0a'] :: splitChunksGo (writeSpecChars (s2 :: t)) [] := by
        rw [splitChunksGo, if_pos rfl]
        rfl
      rw [hsep]
      simp only [List.map_append, List.map_map, List.map_cons]
      have hmapped : (s.map (String.mk ∘ fun l => l.data ++ ['\x0a']))
          = s.map (fun l => String.mk (l.data ++ ['\x0a'])) := by
        simp [Function.comp]
      rw [hmapped, readGo_content_lines hlines _ []]
      rw [readGo_cons_blank rstripN_blank]
      rw [if_neg (by simpa using hs)]
      rw [ih (fun x hx => h x (List.mem_cons_of_mem s hx))]
      simp

theorem no_cr_sentenceChars {s : List String} (h : ∀ l ∈ s, '\x0d' ∉ l.data) :
    '\x0d' ∉ sentenceChars s := by
  induction s with
  | nil => simp [sentenceChars]
  | cons l t ih =>
    rw [sentenceChars]
    simp only [List.mem_append, List.mem_cons, not_or]
    refine ⟨h l (List.mem_cons_self l t), by decide, ?_⟩
    exact ih (fun x hx => h x (List.mem_cons_of_mem l hx))

theorem no_cr_writeSpecChars : ∀ {p : List (List String)},
    (∀ s ∈ p, ∀ l ∈ s, '\x0d' ∉ l.data) → '\x0d' ∉ writeSpecChars p := by
  intro p
  induction p with
  | nil => intro _; simp [writeSpecChars]
  | cons s rest ih =>
    intro h
    cases rest with
    | nil =>
      show '\x0d' ∉ sentenceChars s
      exact no_cr_sentenceChars (h s (List.mem_cons_self s []))
    | cons s2 t =>
      show '\x0d' ∉ sentenceChars s ++ '\x0a' :: writeSpecChars (s2 :: t)
      simp only [List.mem_append, List.mem_cons, not_or]
      refine ⟨no_cr_sentenceChars (h s (List.mem_cons_self s (s2 :: t))), by decide, ?_⟩
      exact ih (fun x hx => h x (List.mem_cons_of_mem s hx))

/-! ## Appending a trailing newline to a file -/

theorem univ_append_nl : ∀ cs : List Char,
    univNewlines (cs ++ ['\x0a']) = univNewlines cs ++ ['\x0a']
      ∨ univNewlines (cs ++ ['\x0a']) = univNewlines cs := by
  intro cs
  induction cs using univNewlines.induct with
  | case1 =>
    left
    rfl
  | case2 =>
    right
    rfl
  | case3 c hc =>
    left
    simp [univNewlines, hc]
  | case4 rest ih =>
    rcases ih with h | h
    · left
      simp [univNewlines, h]
    · right
      simp [univNewlines, h]
  | case5 c2 rest hc2 ih =>
    rcases ih with h | h
    · left
      simp only [List.cons_append] at h ⊢
      simp [univNewlines, hc2, h]
    · right
      simp only [List.cons_append] at h ⊢
      simp [univNewlines, hc2, h]
  | case6 c1 c2 rest hc1 ih =>
    rcases ih with h | h
    · left
      simp only [List.cons_append] at h ⊢
      simp [univNewlines, hc1, h]
    · right
      simp only [List.cons_append] at h ⊢
      simp [univNewlines, hc1, h]

theorem readGo_chunks_append_nl : ∀ (cs acc : List Char) (cur : List String),
    '\x0a' ∉ acc →
    readGo ((splitChunksGo (cs ++ ['\x0a']) acc).map String.mk) cur
      = readGo ((splitChunksGo cs acc).map String.mk) cur := by
  intro cs
  induction cs with
  | nil =>
    intro acc cur hacc
    have hl : splitChunksGo ([] ++ ['\x0a']) acc = [acc.reverse ++ ['\x0a']] := by
      simp [splitChunksGo]
    rw [hl]
    by_cases ha : acc = []
    · subst ha
      simp only [List.reverse_nil, List.nil_append, List.map_cons, List.map_nil]
      rw [readGo_cons_blank rstripN_blank]
      have hr : splitChunksGo ([] : List Char) [] = [] := rfl
      rw [hr]
      simp [readGo_nil]
    · have hacc' : '\x0a' ∉ acc.reverse := by simpa using hacc
      have hstrip : rstripN (String.mk (acc.reverse ++ ['\x0a'])) = String.mk acc.reverse :=
        rstripN_append_nl hacc'
      have hne : ¬ rstripN (String.mk (acc.reverse ++ ['\x0a'])) = "" := by
        rw [hstrip, strMk_eq_empty_iff]
        simpa using ha
      have hr : splitChunksGo ([] : List Char) acc = [acc.reverse] := by
        rw [splitChunksGo, if_neg ha]
      rw [hr]
      simp only [List.map_cons, List.map_nil]
      rw [readGo_cons_content hne, hstrip]
      have hnr : rstripN (String.mk acc.reverse) = String.mk acc.reverse :=
        @rstripN_no_nl (String.mk acc.reverse) hacc'
      have hne2 : ¬ rstripN (String.mk acc.reverse) = "" := by
        rw [hnr, strMk_eq_empty_iff]
        simpa using ha
      rw [readGo_cons_content hne2, hnr]
  | cons c cs ih =>
    intro acc cur hacc
    by_cases hc : c = '\x0a'
    · subst hc
      have e1 : splitChunksGo (('\x0a' :: cs) ++ ['\x0a']) acc
          = (acc.reverse ++ ['\x0a']) :: splitChunksGo (cs ++ ['\x0a']) [] := by
        rw [List.cons_append, splitChunksGo, if_pos rfl]
      have e2 : splitChunksGo ('\x0a' :: cs) acc
          = (acc.reverse ++ ['\x0a']) :: splitChunksGo cs [] := by
        rw [splitChunksGo, if_pos rfl]
      rw [e1, e2, List.map_cons, List.map_cons]
      by_cases ha : acc = []
      · subst ha
        simp only [List.reverse_nil, List.nil_append]
        rw [readGo_cons_blank rstripN_blank, readGo_cons_blank rstripN_blank,
          ih [] [] (by simp)]
      · have hacc' : '\x0a' ∉ acc.reverse := by simpa using hacc
        have hstrip : rstripN (String.mk (acc.reverse ++ ['\x0a'])) = String.mk acc.reverse :=
          rstripN_append_nl hacc'
        have hne : ¬ rstripN (String.mk (acc.reverse ++ ['\x0a'])) = "" := by
          rw [hstrip, strMk_eq_empty_iff]
          simpa using ha
        rw [readGo_cons_content hne, readGo_cons_content hne, hstrip,
          ih [] _ (by simp)]
    · have e1 : splitChunksGo ((c :: cs) ++ ['\x0a']) acc
          = splitChunksGo (cs ++ ['\x0a']) (c :: acc) := by
        rw [List.cons_append, splitChunksGo, if_neg hc]
      have e2 : splitChunksGo (c :: cs) acc = splitChunksGo cs (c :: acc) := by
        rw [splitChunksGo, if_neg hc]
      rw [e1, e2]
      refine ih (c :: acc) cur ?_
      simp only [List.mem_cons, not_or]
      exact ⟨fun hh => hc hh.symm, hacc⟩

/-! ## The shuffle is a permutation -/

theorem swapPermAux {α : Type} :
    ∀ (t : List α) (k : ℕ) (a y : α), t[k]? = some y →
      (y :: t.set k a).Perm (a :: t) := by
  intro t
  induction t with
  | nil =>
    intro k a y h
    simp at h
  | cons b t' ih =>
    intro k a y h
    cases k with
    | zero =>
      simp only [List.getElem?_cons_zero, Option.some.injEq] at h
      subst h
      show (b :: a :: t').Perm (a :: b :: t')
      exact List.Perm.swap a b t'
    | succ k' =>
      simp only [List.getElem?_cons_succ] at h
      show (y :: b :: t'.set k' a).Perm (a :: b :: t')
      exact ((List.Perm.swap b y _).trans ((ih k' a y h).cons b)).trans (List.Perm.swap a b t')

theorem setSet_perm {α : Type} :
    ∀ (l : List α) (i j : ℕ) (x y : α), l[i]? = some x → l[j]? = some y →
      ((l.set i y).set j x).Perm l := by
  intro l
  induction l with
  | nil =>
    intro i j x y h1 _
    simp at h1
  | cons b t ih =>
    intro i j x y h1 h2
    cases i with
    | zero =>
      simp only [List.getElem?_cons_zero, Option.some.injEq] at h1
      subst h1
      cases j with
      | zero =>
        simp only [List.getElem?_cons_zero, Option.some.injEq] at h2
        simp only [List.set_cons_zero]
        exact List.Perm.refl _
      | succ k =>
        simp only [List.getElem?_cons_succ] at h2
        show (y :: t.set k b).Perm (b :: t)
        exact swapPermAux t k b y h2
    | succ m =>
      simp only [List.getElem?_cons_succ] at h1
      cases j with
      | zero =>
        simp only [List.getElem?_cons_zero, Option.some.injEq] at h2
        subst h2
        show (x :: t.set m b).Perm (b :: t)
        exact swapPermAux t m b x h1
      | succ k =>
        simp only [List.getElem?_cons_succ] at h2
        show (b :: (t.set m y).set k x).Perm (b :: t)
        exact (ih m k x y h1 h2).cons b

theorem listSwap_perm {α : Type} (l : List α) (i j : ℕ) :
    (listSwap l i j).Perm l := by
  unfold listSwap
  cases h1 : l[i]? with
  | none =>
    cases h2 : l[j]? <;> exact List.Perm.refl l
  | some x =>
    cases h2 : l[j]? with
    | none => exact List.Perm.refl l
    | some y => exact setSet_perm l i j x y h1 h2

theorem shuffleGo_perm {α : Type} (rand : ℕ → ℕ) :
    ∀ (n : ℕ) (l : List α), (shuffleGo rand n l).Perm l := by
  intro n
  induction n with
  | zero => intro l; exact List.Perm.refl l
  | succ n ih =>
    intro l
    exact (ih _).trans (listSwap_perm l (n + 1) (rand (n + 1) % (n + 2)))

theorem fisherYates_perm {α : Type} (rand : ℕ → ℕ) (l : List α) :
    (fisherYates rand l).Perm l :=
  shuffleGo_perm rand (l.length - 1) l

theorem fisherYates_length {α : Type} (rand : ℕ → ℕ) (l : List α) :
    (fisherYates rand l).length = l.length :=
  (fisherYates_perm rand l).length_eq

/-! ## Bounds on the split-size arithmetic -/

theorem bitLenAux_zero : ∀ f : ℕ, bitLenAux f 0 = 0 := by
  intro f
  cases f with
  | zero => rfl
  | succ f => simp [bitLenAux]

theorem bitLenAux_bounds : ∀ (f n : ℕ), n ≤ f → n ≠ 0 →
    2 ^ (bitLenAux f n - 1) ≤ n ∧ n < 2 ^ bitLenAux f n := by
  intro f
  induction f with
  | zero =>
    intro n h h0
    omega
  | succ f ih =>
    intro n h h0
    rw [bitLenAux, if_neg h0]
    by_cases h2 : n / 2 = 0
    · have hn1 : n = 1 := by omega
      subst hn1
      rw [h2, bitLenAux_zero]
      norm_num
    · have hle : n / 2 ≤ f := by omega
      obtain ⟨hl, hu⟩ := ih (n / 2) hle h2
      have hb1 : 1 ≤ bitLenAux f (n / 2) := by
        by_contra hb
        have : bitLenAux f (n / 2) = 0 := by omega
        rw [this] at hu
        omega
      constructor
      · have hpow : 2 ^ (bitLenAux f (n / 2) + 1 - 1)
            = 2 ^ (bitLenAux f (n / 2) - 1) * 2 := by
          rw [← pow_succ]
          congr 1
          omega
        rw [hpow]
        omega
      · have hpow : 2 ^ (bitLenAux f (n / 2) + 1) = 2 ^ bitLenAux f (n / 2) * 2 := by
          rw [pow_succ]
        rw [hpow]
        omega

theorem bitLen_bounds {n : ℕ} (h : n ≠ 0) :
    2 ^ (bitLen n - 1) ≤ n ∧ n < 2 ^ bitLen n :=
  bitLenAux_bounds n n le_rfl h

theorem bitLen_zero : bitLen 0 = 0 := rfl

theorem roundMant_le (p : ℕ) : roundMant p ≤ p + p / 2 ^ 52 := by
  rw [roundMant]
  by_cases hb : bitLen p ≤ 53
  · rw [if_pos hb]
    omega
  · rw [if_neg hb]
    have hp0 : p ≠ 0 := by
      intro h0
      rw [h0, bitLen_zero] at hb
      omega
    have hlow := (bitLen_bounds hp0).1
    have hexp : bitLen p - 1 = (bitLen p - 53) + 52 := by omega
    rw [hexp, pow_add] at hlow
    have h2s : 2 ^ (bitLen p - 53) ≤ p / 2 ^ 52 := by
      rw [Nat.le_div_iff_mul_le (by positivity)]
      exact hlow
    have hq : p / 2 ^ (bitLen p - 53) * 2 ^ (bitLen p - 53) ≤ p :=
      Nat.div_mul_le_self p _
    have hq1 : (p / 2 ^ (bitLen p - 53) + 1) * 2 ^ (bitLen p - 53)
        = p / 2 ^ (bitLen p - 53) * 2 ^ (bitLen p - 53) + 2 ^ (bitLen p - 53) := by
      ring
    split
    · omega
    · split
      · omega
      · split
        · omega
        · omega

theorem div_le_scaled {a c : ℕ} (b : ℕ) (h : a ≤ b * 2 ^ c) : a / 2 ^ c ≤ b := by
  calc a / 2 ^ c ≤ b * 2 ^ c / 2 ^ c := Nat.div_le_div_right h
  _ = b := Nat.mul_div_cancel b (by positivity)

theorem trainDev_le (n : ℕ) : pyTrainSize n + pyDevSize n ≤ n := by
  rw [pyTrainSize, pyDevSize]
  have hn' : roundMant n ≤ n + n / 2 ^ 52 := roundMant_le n
  have hR : roundMant (roundMant n * mant08)
      ≤ roundMant n * mant08 + roundMant n * mant08 / 2 ^ 52 :=
    roundMant_le _
  have hA : roundMant n * mant08 / 2 ^ 52 ≤ roundMant n := by
    refine div_le_scaled (roundMant n) ?_
    have : mant08 ≤ 2 ^ 52 := by rw [mant08]; norm_num
    calc roundMant n * mant08 ≤ roundMant n * 2 ^ 52 :=
          Nat.mul_le_mul_left _ this
    _ = roundMant n * 2 ^ 52 := rfl
  -- first: collapse the two divisions to a common denominator 2^55
  have h52 : roundMant (roundMant n * mant08) / 2 ^ 52
      = 8 * roundMant (roundMant n * mant08) / 2 ^ 55 := by
    have h8 : (2 : ℕ) ^ 55 = 8 * 2 ^ 52 := by norm_num
    rw [h8, Nat.mul_div_mul_left (roundMant (roundMant n * mant08)) (2 ^ 52)
      (by norm_num : (0 : ℕ) < 8)]
  have hsum : 8 * roundMant (roundMant n * mant08) / 2 ^ 55
      + roundMant (roundMant n * mant08) / 2 ^ 55
      ≤ 9 * roundMant (roundMant n * mant08) / 2 ^ 55 := by
    rw [Nat.le_div_iff_mul_le (by positivity)]
    have ha := Nat.div_mul_le_self (8 * roundMant (roundMant n * mant08)) (2 ^ 55)
    have hb := Nat.div_mul_le_self (roundMant (roundMant n * mant08)) (2 ^ 55)
    have hdistr : (8 * roundMant (roundMant n * mant08) / 2 ^ 55
        + roundMant (roundMant n * mant08) / 2 ^ 55) * 2 ^ 55
        = 8 * roundMant (roundMant n * mant08) / 2 ^ 55 * 2 ^ 55
          + roundMant (roundMant n * mant08) / 2 ^ 55 * 2 ^ 55 := by ring
    rw [hdistr]
    omega
  have hkey : 9 * roundMant (roundMant n * mant08) ≤ n * 2 ^ 55 := by
    have hP : roundMant n * mant08 = 3602879701896397 * roundMant n := by
      rw [mant08]
      ring
    have hd : n / 2 ^ 52 * 2 ^ 52 ≤ n := Nat.div_mul_le_self n _
    rw [hP] at hR hA ⊢
    have h52' : (2 : ℕ) ^ 52 = 4503599627370496 := by norm_num
    have h55' : (2 : ℕ) ^ 55 = 36028797018963968 := by norm_num
    rw [h52'] at hd hR hA
    rw [h55']
    omega
  have hfinal : 9 * roundMant (roundMant n * mant08) / 2 ^ 55 ≤ n :=
    div_le_scaled n (by rw [Nat.mul_comm n (2 ^ 55)] at hkey ⊢; exact hkey)
  omega

/-! ## Claim theorems -/

/-- C1: for every corpus and every realisation of the seeded generator,
slicing the shuffled sentence list into train/dev/test satisfies
`|train| + |dev| + |test| = |corpus|`, and the multiset union of the
three partitions equals the corpus's multiset of sentences exactly —
no sentence is duplicated or dropped. -/
theorem corpus_split_conservation (rand : ℕ → ℕ) (corpus : List (List String)) :
    (splitCorpus rand corpus).1.length + (splitCorpus rand corpus).2.1.length
        + (splitCorpus rand corpus).2.2.length = corpus.length
    ∧ ((splitCorpus rand corpus).1 ++ (splitCorpus rand corpus).2.1
        ++ (splitCorpus rand corpus).2.2 : Multiset (List String))
      = (corpus : Multiset (List String)) := by
  have hperm : (fisherYates rand corpus).Perm corpus := fisherYates_perm rand corpus
  simp only [splitCorpus]
  have hj : (fisherYates rand corpus).take (pyTrainSize (fisherYates rand corpus).length)
      ++ (((fisherYates rand corpus).drop
            (pyTrainSize (fisherYates rand corpus).length)).take
          (pyDevSize (fisherYates rand corpus).length)
        ++ (fisherYates rand corpus).drop
          (pyTrainSize (fisherYates rand corpus).length
            + pyDevSize (fisherYates rand corpus).length))
      = fisherYates rand corpus := by
    rw [← List.drop_drop, List.take_append_drop, List.take_append_drop]
  constructor
  · have hlen := congrArg List.length hj
    simp only [List.length_append] at hlen
    have hpl := hperm.length_eq
    omega
  · rw [Multiset.coe_eq_coe, List.append_assoc, hj]
    exact hperm

/-- C2: for a partition whose sentences are non-empty lists of non-empty
lines containing no line-terminator character (neither LF nor CR),
writing with `write_conllu_sentences` and re-reading the written file
with `read_conllu_sentences` returns exactly the sentence sequence that
was written. -/
theorem write_read_round_trip (p : List (List String))
    (h : ∀ s ∈ p, s ≠ [] ∧ ∀ l ∈ s, l ≠ "" ∧ '\x0a' ∉ l.data ∧ '\x0d' ∉ l.data) :
    read_conllu_sentences (write_conllu_sentences p) = p := by
  rw [write_eq_writeSpec, read_conllu_sentences, pythonLines]
  have hdata : (writeSpecString p).data = writeSpecChars p := rfl
  rw [hdata,
    univNewlines_no_cr (no_cr_writeSpecChars (fun s hs l hl => ((h s hs).2 l hl).2.2))]
  exact read_write_chunks (fun s hs =>
    ⟨(h s hs).1, fun l hl => ⟨((h s hs).2 l hl).1, ((h s hs).2 l hl).2.1⟩⟩)

/-- Witness for C2 at the concrete partition `[["a", "b"], ["c"]]`. -/
theorem write_read_round_trip_witness :
    (∀ s ∈ [["a", "b"], ["c"]], s ≠ ([] : List String)
        ∧ ∀ l ∈ s, l ≠ "" ∧ '\x0a' ∉ l.data ∧ '\x0d' ∉ l.data)
    ∧ read_conllu_sentences (write_conllu_sentences [["a", "b"], ["c"]])
      = [["a", "b"], ["c"]] :=
  ⟨by decide, write_read_round_trip [["a", "b"], ["c"]] (by decide)⟩

/-- C3 (amended): `train_size` and `dev_size` are the integer parts of
the double-precision products `0.8 * total` and `0.1 * total`; these
agree with the exact rational floors for every `total < 1000` (and in
particular give 8/1/1 at `total = 10` and 5/0/2 at `total = 7`), and
`test_size = total - train_size - dev_size` is never negative — but the
double computation does not equal the exact floor for every `total`
(see the counterexample at `total = 2^51 + 3`). -/
theorem split_sizes_amended :
    (∀ n : ℕ, 1 ≤ n → 0 ≤ pyTestSize n)
    ∧ (∀ n : ℕ, n < 1000 → pyTrainSize n = 4 * n / 5 ∧ pyDevSize n = n / 10)
    ∧ pyTrainSize 10 = 8 ∧ pyDevSize 10 = 1 ∧ pyTestSize 10 = 1
    ∧ pyTrainSize 7 = 5 ∧ pyDevSize 7 = 0 ∧ pyTestSize 7 = 2 := by
  refine ⟨?_, by decide, by decide, by decide, by decide, by decide, by decide, by decide⟩
  intro n _
  have hle := trainDev_le n
  rw [pyTestSize]
  omega

/-- Witness for C3's amended statement at the concrete total `10`. -/
theorem split_sizes_amended_witness : (1 : ℕ) ≤ 10 ∧ 0 ≤ pyTestSize 10 :=
  ⟨by decide, split_sizes_amended.1 10 (by decide)⟩

/-- C3 counterexample: at `total = 2^51 + 3` the code's double-precision
`int(0.8 * total)` is `1801439850948201`, one more than the exact
rational floor `floor(0.8 * total) = 1801439850948200`, so the claim's
"floor of the exact rational products" fails. -/
theorem split_sizes_not_exact_floor :
    pyTrainSize (2 ^ 51 + 3) ≠ 4 * (2 ^ 51 + 3) / 5 := by decide

/-- C4 (amended): the reader assigns every input line that is non-empty
after stripping its trailing newline to exactly one sentence, in input
order; blank lines act only as separators and belong to no sentence.
Concatenating the produced sentences yields exactly the stripped
non-blank input lines in order. -/
theorem reader_line_assignment (lines : List String) :
    flattenL (readLines lines) = nonBlank (lines.map rstripN) := by
  rw [readLines, flattenL_readGo, List.nil_append]

/-- C4 counterexample: on the input lines `["a", "", "b"]` the blank
line is a line of the input but appears in no output sentence, so "every
line of the input is assigned to exactly one sentence" fails as stated. -/
theorem blank_line_not_assigned :
    readLines ["a", "", "b"] = [["a"], ["b"]]
    ∧ ("" : String) ∉ flattenL (readLines ["a", "", "b"]) := by decide

/-- C5: the writer's output consists of each sentence's lines verbatim in
order, each followed by exactly one line terminator, with exactly one
blank line between consecutive sentences and no blank line after the
final sentence (the structure captured by `writeSpecString`). -/
theorem writer_output_format (p : List (List String)) :
    write_conllu_sentences p = writeSpecString p :=
  write_eq_writeSpec p

/-- C6: the pipeline is deterministic — with the generator fixed by the
constant seed, two runs on equal input directory contents produce
identical train/dev/test outputs. -/
theorem pipeline_deterministic (rand : ℕ → ℕ) (files1 files2 : List String)
    (h : files1 = files2) : runMain rand files1 = runMain rand files2 := by
  rw [h]

/-- Witness for C6 at a concrete generator and file list. -/
theorem pipeline_deterministic_witness :
    runMain (fun _ => 0) ["a\x0ab"] = runMain (fun _ => 0) ["a\x0ab"] :=
  pipeline_deterministic (fun _ => 0) ["a\x0ab"] ["a\x0ab"] rfl

/-- C7: with no matching input files the run reports the condition
(`RunOutcome.noInput`), writes no output files, and returns normally
without an unhandled fault. -/
theorem no_input_files_reported (rand : ℕ → ℕ) :
    runMain rand [] = RunOutcome.noInput := rfl

/-- C8: no sentence returned by the reader is empty, for every input
file content — including contents with leading or consecutive blank
lines. -/
theorem reader_sentences_nonempty (content : String) :
    [] ∉ read_conllu_sentences content :=
  readGo_no_empty (pythonLines content) []

/-- C9: appending a trailing newline (hence a trailing blank line when
the content is already newline-terminated) to a file's content changes
neither the sentences returned by the reader nor their number. -/
theorem trailing_blank_line_count (content : String) :
    read_conllu_sentences (content ++ "\x0a") = read_conllu_sentences content := by
  rw [read_conllu_sentences, read_conllu_sentences, pythonLines, pythonLines,
    String.data_append]
  have hnl : ("\x0a" : String).data = ['\x0a'] := rfl
  rw [hnl]
  rcases univ_append_nl content.data with h | h
  · rw [h]
    exact readGo_chunks_append_nl (univNewlines content.data) [] [] (by simp)
  · rw [h]

/-- C10 (amended): in the reader's line loop, a line containing any
character other than `'\n'` (for example only spaces or tabs) is not
blank after `rstrip('\n')` and is appended to the current sentence as a
content line; only all-`'\n'` (or empty) lines act as boundaries.  A
`'\r'` never reaches the loop from a CRLF file, because universal-newline
decoding converts it (see the counterexample). -/
theorem whitespace_line_is_content (line : String) (rest cur : List String)
    (h : ∃ c ∈ line.data, ¬ c = '\x0a') :
    rstripN line ≠ ""
      ∧ readGo (line :: rest) cur = readGo rest (cur ++ [rstripN line]) := by
  have hne : rstripN line ≠ "" := by
    intro he
    obtain ⟨c, hc, hcnl⟩ := h
    have h1 : line.data.reverse.dropWhile (fun c => c = '\x0a') = [] := by
      have h2 := congrArg String.data he
      simpa [rstripN] using h2
    have hall := List.dropWhile_eq_nil_iff.mp h1
    have hcr : c ∈ line.data.reverse := by simpa using hc
    have := hall c hcr
    simp at this
    exact hcnl this
  exact ⟨hne, readGo_cons_content hne rest cur⟩

/-- Witness for C10's amended statement at the single-space line. -/
theorem whitespace_line_is_content_witness :
    (∃ c ∈ (" " : String).data, ¬ c = '\x0a')
    ∧ rstripN " " ≠ ""
    ∧ readGo [" "] [] = readGo [] ([] ++ [rstripN " "]) :=
  ⟨by decide, whitespace_line_is_content " " [] [] (by decide)⟩

/-- C10 counterexample: in the file content `"a\n\r\nb"` the CRLF blank
line is treated as a sentence boundary — the reader returns two
sentences and no `"\r"` line is appended anywhere — contradicting the
claim that such a line is kept as content. -/
theorem crlf_blank_line_is_boundary :
    read_conllu_sentences "a\x0a\x0d\x0ab" = [["a"], ["b"]]
    ∧ ("\x0d" : String) ∉ flattenL (read_conllu_sentences "a\x0a\x0d\x0ab") := by
  decide
